import Mathlib

/-
Shallow embedding of the sigmaterm terminal core:
  * src/parser.rs   — parse_ansi_output, the ANSI escape-sequence decoder;
  * src/terminal.rs — the PTY session: read_output (output buffering with a
    50000-byte cap and raw-mode marker scanning) and handle_keyboard_input;
  * src/manager.rs  — TerminalManager: add/remove/rearrange/resize of panes.

Rust strings are modelled as `List Char` (the buffer cap and the eviction
slice in read_output act on UTF-8 *byte* indices, modelled by `utf8Width`/
`byteLen`).  egui colors are opaque to the core logic and are modelled as
naturals; f32 geometry is modelled with exact rationals.  Fallible steps
(the eviction slice, which in Rust panics off a char boundary) return
`Option`.
-/

/-- egui::Color32 is opaque to the core logic; modelled as a natural number. -/
abbrev Color := Nat

/-- Structure `ColorSet` from src/utils.rs: the named palette roles. -/
structure ColorSet where
  primary : Color
  light : Color
  dark : Color
  on_primary : Color
  on_light : Color
  on_dark : Color
  alert : Color
  warning : Color
  alternate_1 : Color
  alternate_2 : Color
  alternate_3 : Color
  deriving DecidableEq, Repr

/-- Structure `TerminalOutput` from src/parser.rs: one styled text segment. -/
structure TerminalOutput where
  text : List Char
  color : Color
  bold : Bool
  deriving DecidableEq, Repr

/-- The CSI parameter reader inside `parse_ansi_output`: consume characters
into the parameter string until the first ASCII-alphabetic terminator
(the Rust loop tests `ch.is_ascii_alphabetic() || ch == 'm'`), which is
consumed and dropped.  Returns the parameter string and the rest. -/
def readCSI : List Char → List Char × List Char
  | [] => ([], [])
  | c :: cs =>
    if c.isAlpha || c == 'm' then ([], cs)
    else
      let r := readCSI cs
      (c :: r.1, r.2)

/-- The OSC skipper inside `parse_ansi_output`: consume characters until a
BEL (`\x07`) terminator, or an ESC that is immediately followed by `\\`. -/
def skipOSC : List Char → List Char
  | [] => []
  | '\x07' :: cs => cs
  | '\x1b' :: '\\' :: cs2 => cs2
  | '\x1b' :: cs => skipOSC cs
  | _ :: cs => skipOSC cs

/-- Rust `str::split(';')`: split on semicolons, keeping empty pieces. -/
def splitSemiAux : List Char → List Char → List (List Char)
  | [], cur => [cur.reverse]
  | c :: cs, cur =>
    if c = ';' then cur.reverse :: splitSemiAux cs [] else splitSemiAux cs (c :: cur)

def splitSemi (s : List Char) : List (List Char) :=
  splitSemiAux s []

/-- One arm of the SGR `match` in parse_ansi_output: `"0" | "00"` resets,
`"1" | "01"` sets bold, `"31"`..`"36"` select palette roles, anything else
is ignored.  The state is the current (color, bold) pair. -/
def applySGRPart (cset : ColorSet) (dflt : Color) (st : Color × Bool) (part : List Char) :
    Color × Bool :=
  if part = ['0'] then (dflt, false)
  else if part = ['0', '0'] then (dflt, false)
  else if part = ['1'] then (st.1, true)
  else if part = ['0', '1'] then (st.1, true)
  else if part = ['3', '1'] then (cset.alert, st.2)
  else if part = ['3', '2'] then (cset.primary, st.2)
  else if part = ['3', '3'] then (cset.warning, st.2)
  else if part = ['3', '4'] then (cset.alternate_1, st.2)
  else if part = ['3', '5'] then (cset.alternate_2, st.2)
  else if part = ['3', '6'] then (cset.alternate_3, st.2)
  else st

/-- The SGR loop: `for part in code.split(';')`, later parts acting on the
state left by earlier ones. -/
def applySGR (cset : ColorSet) (dflt : Color) (st : Color × Bool) (code : List Char) :
    Color × Bool :=
  (splitSemi code).foldl (applySGRPart cset dflt) st

/-- The guard `code.chars().all(|c| c.is_ascii_digit() || c == ';')`. -/
def isSGRParams (code : List Char) : Bool :=
  code.all fun c => c.isDigit || c == ';'

/-- The character-scanning loop of `parse_ansi_output` (src/parser.rs).
State: the remaining input, the current color, the pending plain-text run
`cur`, and the bold flag.  On `\x1b` the pending run is flushed and the
escape sequence is dispatched on the following character. -/
def parseLoop (cset : ColorSet) (dflt : Color) (cs : List Char) (col : Color)
    (cur : List Char) (b : Bool) : List TerminalOutput :=
  match cs with
  | [] => if cur = [] then [] else [⟨cur, col, b⟩]
  | '\x1b' :: rest =>
    let flushed : List TerminalOutput := if cur = [] then [] else [⟨cur, col, b⟩]
    match rest with
    | '[' :: rest2 =>
      let code := (readCSI rest2).1
      let st := if isSGRParams code then applySGR cset dflt (col, b) code else (col, b)
      flushed ++ parseLoop cset dflt (readCSI rest2).2 st.1 [] st.2
    | ']' :: rest2 => flushed ++ parseLoop cset dflt (skipOSC rest2) col [] b
    | _ :: rest2 => flushed ++ parseLoop cset dflt rest2 col [] b
    | [] => flushed
  | c :: rest => parseLoop cset dflt rest col (cur ++ [c]) b
termination_by cs.length
decreasing_by
  · have h : (readCSI rest2).2.length ≤ rest2.length := by
      induction rest2 with
      | nil => simp [readCSI]
      | cons c cs ih =>
        simp only [readCSI]
        split
        · simp
        · simpa using Nat.le_succ_of_le ih
    simp
    omega
  · have h : (skipOSC rest2).length ≤ rest2.length := by
      induction rest2 using skipOSC.induct <;> simp [skipOSC] <;> omega
    simp
    omega
  · simp
    omega
  · simp

/-- Function `parse_ansi_output` from src/parser.rs. -/
def parse_ansi_output (output : List Char) (cset : ColorSet) (dflt : Color) :
    List TerminalOutput :=
  parseLoop cset dflt output dflt [] false

/-- The plain text carried by an input stream: same consumption structure as
`parse_ansi_output`, with every escape sequence removed. -/
def plainText (cs : List Char) : List Char :=
  match cs with
  | [] => []
  | '\x1b' :: rest =>
    match rest with
    | '[' :: rest2 => plainText (readCSI rest2).2
    | ']' :: rest2 => plainText (skipOSC rest2)
    | _ :: rest2 => plainText rest2
    | [] => []
  | c :: rest => c :: plainText rest
termination_by cs.length
decreasing_by
  · have h : (readCSI rest2).2.length ≤ rest2.length := by
      induction rest2 with
      | nil => simp [readCSI]
      | cons c cs ih =>
        simp only [readCSI]
        split
        · simp
        · simpa using Nat.le_succ_of_le ih
    simp
    omega
  · have h : (skipOSC rest2).length ≤ rest2.length := by
      induction rest2 using skipOSC.induct <;> simp [skipOSC] <;> omega
    simp
    omega
  · simp
    omega
  · simp

/-- The adjacent-style-distinctness property claimed of the parser output:
no two consecutive segments carry the same (color, bold). -/
def noAdjacentSameStyle : List TerminalOutput → Bool
  | [] => true
  | [_] => true
  | a :: b :: rest =>
    (!(a.color == b.color && a.bold == b.bold)) && noAdjacentSameStyle (b :: rest)

-- PTY session (src/terminal.rs) ===========================================

/-- UTF-8 byte width of a character, as Rust `char::len_utf8`.  The Rust
code measures and slices its `String` buffer in bytes. -/
def utf8Width (c : Char) : Nat :=
  if c.toNat < 0x80 then 1
  else if c.toNat < 0x800 then 2
  else if c.toNat < 0x10000 then 3
  else 4

/-- Rust `String::len`: total UTF-8 byte length. -/
def byteLen (s : List Char) : Nat :=
  (s.map utf8Width).sum

/-- Rust `&s[k..]`: drop the first `k` bytes.  Returns `none` when `k` is
not a character boundary — in Rust, that slice panics. -/
def dropBytes : Nat → List Char → Option (List Char)
  | 0, s => some s
  | _ + 1, [] => none
  | k + 1, c :: cs =>
    if utf8Width c ≤ k + 1 then dropBytes (k + 1 - utf8Width c) cs else none

/-- Rust `str::starts_with` for our `List Char` strings (pattern first). -/
def matchesAt : List Char → List Char → Bool
  | [], _ => true
  | _ :: _, [] => false
  | p :: ps, c :: cs => p == c && matchesAt ps cs

/-- Rust `str::contains(pat)` (substring search). -/
def containsStr (s pat : List Char) : Bool :=
  match s with
  | [] => matchesAt pat []
  | _ :: rest => matchesAt pat s || containsStr rest pat

/-- The disabled enter-raw-mode marker scan in `Terminal::read_output`
(the whole condition is guarded by `false && ...` in the source). -/
def rawEnterDetected (chunk : List Char) : Bool :=
  containsStr chunk "\x1b[?1049h".toList || containsStr chunk "\x1b[?25l".toList ||
    containsStr chunk "\x1b[2J".toList || containsStr chunk "\x1b[H\x1b[2J".toList

/-- The alternate-screen-exit marker whose presence clears the buffer and
clears the raw-mode flag. -/
def altExitMarker : List Char := "\x1b[?1049l".toList

/-- One successful read in `Terminal::read_output` (src/terminal.rs lines
104–147), given the decoded text `chunk` of the bytes read this tick:
the (dead) enter-raw-mode scan, the exit-marker scan that clears the
buffer, the append, and the 50000-byte cap eviction.  Returns the new
(raw_mode, output_buffer), or `none` where the Rust byte-slice
`output_buffer[keep_from..]` would panic off a char boundary. -/
def read_output (raw : Bool) (buf : List Char) (chunk : List Char) :
    Option (Bool × List Char) :=
  let raw1 := if false && rawEnterDetected chunk then true else raw
  let st := if containsStr chunk altExitMarker then (false, ([] : List Char)) else (raw1, buf)
  let buf2 := st.2 ++ chunk
  if byteLen buf2 > 50000 then
    match dropBytes (byteLen buf2 - 50000) buf2 with
    | none => none
    | some b => some (st.1, b)
  else some (st.1, buf2)

/-- A sequence of `read_output` calls, one per tick with data. -/
def pollMany (raw : Bool) (buf : List Char) : List (List Char) → Option (Bool × List Char)
  | [] => some (raw, buf)
  | ch :: rest =>
    match read_output raw buf ch with
    | none => none
    | some (r, b) => pollMany r b rest

-- Keyboard input (Terminal::handle_keyboard_input) ------------------------

/-- The egui named keys that `handle_keyboard_input` distinguishes. -/
inductive EKey where
  | enter | backspace | tab | escape
  | arrowUp | arrowDown | arrowRight | arrowLeft
  | homeKey | endKey | pageUp | pageDown | deleteKey
  | keyC | keyD | keyZ | keyL
  | otherKey
  deriving DecidableEq, Repr

structure EModifiers where
  ctrl : Bool
  deriving DecidableEq, Repr

/-- One egui input event: text, or a pressed named key with modifiers. -/
inductive TEvent where
  | text (s : List Char)
  | key (k : EKey) (mods : EModifiers)

/-- The session state that `handle_keyboard_input` and `read_output`
mutate: the raw-mode flag, the output buffer, the line-edit command
buffer, and (for observation) the byte strings written to the child. -/
structure SessionState where
  raw_mode : Bool
  output_buffer : List Char
  command_buffer : List Char
  sent : List (List Char)
  deriving DecidableEq, Repr

/-- Initial state per `Terminal::new`: raw mode off, buffers empty. -/
def initSession : SessionState := ⟨false, [], [], []⟩

/-- The raw-mode key translation table of `handle_keyboard_input`. -/
def rawKeySeq (k : EKey) (mods : EModifiers) : List Char :=
  match k with
  | .enter => ['\r']
  | .backspace => ['\x7f']
  | .tab => ['\t']
  | .escape => ['\x1b']
  | .arrowUp => "\x1b[A".toList
  | .arrowDown => "\x1b[B".toList
  | .arrowRight => "\x1b[C".toList
  | .arrowLeft => "\x1b[D".toList
  | .homeKey => "\x1b[H".toList
  | .endKey => "\x1b[F".toList
  | .pageUp => "\x1b[5~".toList
  | .pageDown => "\x1b[6~".toList
  | .deleteKey => "\x1b[3~".toList
  | .keyC => if mods.ctrl then ['\x03'] else []
  | .keyD => if mods.ctrl then ['\x04'] else []
  | .keyZ => if mods.ctrl then ['\x1a'] else []
  | .keyL => if mods.ctrl then ['\x0c'] else []
  | .otherKey => []

/-- The inner `key_seq` table of the normal-mode catch-all arm (arrow and
navigation keys forwarded to the PTY; everything else maps to ""). -/
def normalKeySeq (k : EKey) : List Char :=
  match k with
  | .tab => ['\t']
  | .escape => ['\x1b']
  | .arrowUp => "\x1b[A".toList
  | .arrowDown => "\x1b[B".toList
  | .arrowRight => "\x1b[C".toList
  | .arrowLeft => "\x1b[D".toList
  | .homeKey => "\x1b[H".toList
  | .endKey => "\x1b[F".toList
  | .pageUp => "\x1b[5~".toList
  | .pageDown => "\x1b[6~".toList
  | .deleteKey => "\x1b[3~".toList
  | _ => []

/-- Write `seq` to the child if nonempty (the `if !key_seq.is_empty()`
guard around the PTY write). -/
def sendSeq (st : SessionState) (seq : List Char) : SessionState :=
  if seq = [] then st else { st with sent := st.sent ++ [seq] }

/-- The normal-mode (line-edit) key dispatch of `handle_keyboard_input`:
Enter writes the command buffer plus `\n` and clears it; Backspace pops;
Ctrl+C writes `\x03` and clears; Ctrl+D / Ctrl+L write control bytes;
every other key goes through the `key_seq` table. -/
def handleKeyNormal (st : SessionState) (k : EKey) (mods : EModifiers) : SessionState :=
  match k with
  | .enter => { st with sent := st.sent ++ [st.command_buffer ++ ['\n']], command_buffer := [] }
  | .backspace => { st with command_buffer := st.command_buffer.dropLast }
  | .keyC =>
    if mods.ctrl then { st with sent := st.sent ++ [['\x03']], command_buffer := [] }
    else sendSeq st (normalKeySeq .keyC)
  | .keyD => if mods.ctrl then { st with sent := st.sent ++ [['\x04']] } else sendSeq st (normalKeySeq .keyD)
  | .keyL => if mods.ctrl then { st with sent := st.sent ++ [['\x0c']] } else sendSeq st (normalKeySeq .keyL)
  | k => sendSeq st (normalKeySeq k)

/-- One event step of `Terminal::handle_keyboard_input` (src/terminal.rs
lines 343–470): text appends to the command buffer in normal mode and is
written through in raw mode; keys dispatch on the raw-mode flag. -/
def handle_keyboard_input (st : SessionState) (e : TEvent) : SessionState :=
  match e with
  | .text s =>
    if st.raw_mode then { st with sent := st.sent ++ [s] }
    else { st with command_buffer := st.command_buffer ++ s }
  | .key k mods =>
    if st.raw_mode then sendSeq st (rawKeySeq k mods)
    else handleKeyNormal st k mods

/-- Function `read_output` lifted to the session state. -/
def sessionRead (st : SessionState) (chunk : List Char) : Option SessionState :=
  match read_output st.raw_mode st.output_buffer chunk with
  | none => none
  | some (r, b) => some { st with raw_mode := r, output_buffer := b }

/-- The session states reachable from `Terminal::new` through completed
`read_output` calls and keyboard events. -/
inductive Reachable : SessionState → Prop where
  | init : Reachable initSession
  | read {s s' : SessionState} {chunk : List Char} :
      Reachable s → sessionRead s chunk = some s' → Reachable s'
  | input {s : SessionState} (e : TEvent) : Reachable s → Reachable (handle_keyboard_input s e)

-- Pane multiplexer (src/manager.rs) =======================================

/-- The fields of a `Terminal` that `TerminalManager` reads or writes:
slot id, active flag, geometry, the hue its header was created with, and
the maximized flag. -/
structure MTerm where
  id : Nat
  is_active : Bool
  width : ℚ
  height : ℚ
  hue : ℚ
  is_maximized : Bool
  deriving DecidableEq, Repr

/-- Constructor `Terminal::new(id, width, height, hue, is_maximized)`. -/
def mkTerminal (id : Nat) (width height : ℚ) (hue : ℚ) (is_maximized : Bool) : MTerm :=
  ⟨id, false, width, height, hue, is_maximized⟩

/-- Structure `TerminalManager` (src/manager.rs). -/
structure TerminalManager where
  terminals : List MTerm
  num_terminals : Nat
  max_terminals : Nat
  top_row_terminals : List Nat
  bottom_row_terminals : List Nat
  show_all : Bool
  last_hue : ℚ
  active_terminal_id : Option Nat
  deriving DecidableEq, Repr

/-- Default state `TerminalManager::default()`. -/
def defaultManager : TerminalManager :=
  ⟨[], 0, 6, [], [], true, 180, none⟩

/-- Rust `terminals.get_mut(i)` followed by a mutation: update in place when the
index is live, do nothing otherwise. -/
def updateAt : List MTerm → Nat → (MTerm → MTerm) → List MTerm
  | [], _, _ => []
  | t :: ts, 0, f => f t :: ts
  | t :: ts, i + 1, f => t :: updateAt ts i f

/-- Method `TerminalManager::set_active_terminal`: deactivate every terminal, then
activate slot `id` and record it, when it exists. -/
def set_active_terminal (m : TerminalManager) (id : Nat) : TerminalManager :=
  let ts := m.terminals.map fun t => { t with is_active := false }
  match ts.get? id with
  | some _ =>
    { m with terminals := updateAt ts id (fun t => { t with is_active := true }),
             active_terminal_id := some id }
  | none => { m with terminals := ts }

/-- Set width and height on the terminals at the listed indices. -/
def setSizes (ts : List MTerm) (idxs : List Nat) (w h : ℚ) : List MTerm :=
  idxs.foldl (fun acc i => updateAt acc i fun t => { t with width := w, height := h }) ts

/-- Method `TerminalManager::resize_terminals`: split the height across populated
rows and each row's width across its occupants, with a fixed border
allowance of 2 per occupant. -/
def resize_terminals (m : TerminalManager) (availableWidth availableHeight : ℚ) :
    TerminalManager :=
  let borderWidth : ℚ := 2
  let topCount : ℚ := (max m.top_row_terminals.length 1 : Nat)
  let topW : ℚ := (availableWidth - borderWidth * topCount) / topCount
  let topH : ℚ :=
    if m.bottom_row_terminals.length > 0 then availableHeight / 2 else availableHeight
  let bottomCount : ℚ := (max m.bottom_row_terminals.length 1 : Nat)
  let bottomW : ℚ :=
    if m.bottom_row_terminals.length > 0 then
      (availableWidth - borderWidth * bottomCount) / bottomCount
    else availableWidth
  let bottomH : ℚ := availableHeight / 2
  { m with terminals :=
      (setSizes (setSizes m.terminals m.top_row_terminals topW topH)
        m.bottom_row_terminals bottomW bottomH) }

/-- Method `TerminalManager::rearrange_terminals`: with at most 2 live sessions
all go on the top row; otherwise the first `num/2` go on top and the rest
on the bottom. -/
def rearrange_terminals (m : TerminalManager) : TerminalManager :=
  if m.num_terminals ≤ 2 then
    { m with top_row_terminals := List.range m.num_terminals, bottom_row_terminals := [] }
  else
    let mid := m.num_terminals / 2
    { m with top_row_terminals := List.range mid,
             bottom_row_terminals := List.range' mid (m.num_terminals - mid) }

/-- Method `TerminalManager::add_terminal`: reject at the 6-pane cap; otherwise
spawn a terminal with the rolling hue, activate it when it is the first
pane, append it, advance the hue, re-partition the rows and resize. -/
def add_terminal (m : TerminalManager) (availableWidth availableHeight : ℚ) :
    TerminalManager × Option Nat :=
  if m.num_terminals + 1 > 6 then (m, none)
  else
    let id := m.num_terminals
    let t0 := mkTerminal id 100 100 m.last_hue (!m.show_all)
    let st :=
      if m.num_terminals = 0 then ({ t0 with is_active := true }, some id)
      else (t0, m.active_terminal_id)
    let m1 := { m with terminals := m.terminals ++ [st.1],
                       num_terminals := m.num_terminals + 1,
                       last_hue := m.last_hue + 55,
                       active_terminal_id := st.2 }
    let m2 := resize_terminals (rearrange_terminals m1) availableWidth availableHeight
    (m2, some (m1.num_terminals - 1))

/-- Reassign ids `start, start+1, ...` along the list (the renumbering
loop in `remove_terminal`). -/
def renumberFrom : Nat → List MTerm → List MTerm
  | _, [] => []
  | i, t :: ts => { t with id := i } :: renumberFrom (i + 1) ts

/-- Method `TerminalManager::remove_terminal`: remove slot `index`, renumber the
remaining terminals to dense ids, fix up the active slot (slot 0 when the
active one was removed and panes remain; decrement when the active id was
beyond the removed slot), re-partition and resize.  Returns the removed
terminal. -/
def remove_terminal (m : TerminalManager) (index : Nat)
    (availableWidth availableHeight : ℚ) : TerminalManager × Option MTerm :=
  if index < m.terminals.length then
    let removed := m.terminals.get? index
    let m1 := { m with num_terminals := m.num_terminals - 1,
                       terminals := renumberFrom 0 (m.terminals.eraseIdx index) }
    let m2 :=
      if m1.active_terminal_id = some index then
        let m1a := { m1 with active_terminal_id := none }
        if m1a.terminals ≠ [] then set_active_terminal m1a 0 else m1a
      else
        match m1.active_terminal_id with
        | some activeId =>
          if activeId > index then { m1 with active_terminal_id := some (activeId - 1) }
          else m1
        | none => m1
    (resize_terminals (rearrange_terminals m2) availableWidth availableHeight, removed)
  else (m, none)

-- Concrete sample data used by counterexamples and witnesses ==============

/-- A concrete palette with pairwise-distinct colors. -/
def samplePalette : ColorSet := ⟨1, 2, 3, 4, 5, 6, 7, 8, 9, 10, 11⟩

/-- A concrete default color, distinct from every palette entry. -/
def sampleDefault : Color := 99

/-- U+00E9, a two-byte UTF-8 character. -/
def twoByteChar : Char := Char.ofNat 233

/-- A sequence of reads (each at most the 4096-byte read buffer) whose
last read makes the eviction offset fall inside `twoByteChar`. -/
def panicChunks : List (List Char) :=
  (twoByteChar :: List.replicate 4094 'a') ::
    (List.replicate 11 (List.replicate 4096 'a') ++ [List.replicate 848 'a', ['a']])

/-- A feed totalling more than the cap whose last chunk carries the
alternate-screen-exit marker, which clears the buffer. -/
def capCexChunks : List (List Char) := [List.replicate 50001 'a', altExitMarker]

/-- A manager holding three live panes with slot 2 active. -/
def manager3 : TerminalManager :=
  ⟨[⟨0, false, 100, 100, 180, false⟩, ⟨1, false, 100, 100, 235, false⟩,
      ⟨2, true, 100, 100, 290, false⟩],
    3, 6, [0], [1, 2], true, 345, some 2⟩

/-- A manager at the 6-pane capacity. -/
def manager6 : TerminalManager :=
  ⟨[⟨0, true, 100, 100, 180, false⟩, ⟨1, false, 100, 100, 235, false⟩,
      ⟨2, false, 100, 100, 290, false⟩, ⟨3, false, 100, 100, 345, false⟩,
      ⟨4, false, 100, 100, 400, false⟩, ⟨5, false, 100, 100, 455, false⟩],
    6, 6, [0, 1, 2], [3, 4, 5], true, 510, some 0⟩

/-- A manager with five live panes (only `num_terminals` matters to
`rearrange_terminals`). -/
def manager5 : TerminalManager :=
  ⟨[⟨0, true, 100, 100, 180, false⟩, ⟨1, false, 100, 100, 235, false⟩,
      ⟨2, false, 100, 100, 290, false⟩, ⟨3, false, 100, 100, 345, false⟩,
      ⟨4, false, 100, 100, 400, false⟩],
    5, 6, [0, 1], [2, 3, 4], true, 455, some 0⟩

-- Theorems ================================================================

-- Helper lemmas about byte lengths and the eviction slice ------------------

theorem byteLen_nil : byteLen [] = 0 := rfl

theorem byteLen_cons (c : Char) (s : List Char) :
    byteLen (c :: s) = utf8Width c + byteLen s := by
  simp [byteLen]

theorem byteLen_append (s t : List Char) : byteLen (s ++ t) = byteLen s + byteLen t := by
  simp [byteLen]

theorem byteLen_replicate (n : Nat) (c : Char) :
    byteLen (List.replicate n c) = n * utf8Width c := by
  induction n with
  | zero => simp [byteLen]
  | succ n ih =>
    rw [List.replicate_succ, byteLen_cons, ih]
    ring

theorem utf8Width_ascii_a : utf8Width 'a' = 1 := by decide

theorem utf8Width_twoByteChar : utf8Width twoByteChar = 2 := by decide

theorem dropBytes_suffix {k : Nat} {s t : List Char} (h : dropBytes k s = some t) :
    t <:+ s := by
  induction s generalizing k with
  | nil =>
    match k, h with
    | 0, h => simp [dropBytes] at h; simp [h]
  | cons c cs ih =>
    match k, h with
    | 0, h => simp [dropBytes] at h; simp [h]
    | k + 1, h =>
      rw [dropBytes] at h
      split at h
      · exact (ih h).trans (List.suffix_cons c cs)
      · exact absurd h (by simp)

theorem dropBytes_byteLen {k : Nat} {s t : List Char} (h : dropBytes k s = some t) :
    k ≤ byteLen s ∧ byteLen t = byteLen s - k := by
  induction s generalizing k with
  | nil =>
    match k, h with
    | 0, h => simp [dropBytes] at h; simp [h]
  | cons c cs ih =>
    match k, h with
    | 0, h => simp [dropBytes] at h; simp [h]
    | k + 1, h =>
      rw [dropBytes] at h
      split at h
      · rename_i hw
        obtain ⟨h1, h2⟩ := ih h
        rw [byteLen_cons]
        omega
      · exact absurd h (by simp)

theorem dropBytes_replicate_one {c : Char} (hw : utf8Width c = 1) :
    ∀ k n : Nat, k ≤ n → dropBytes k (List.replicate n c) = some (List.replicate (n - k) c) := by
  intro k
  induction k with
  | zero => intro n _; simp [dropBytes]
  | succ k ih =>
    intro n hn
    match n, hn with
    | n + 1, hn =>
      rw [List.replicate_succ, dropBytes, hw]
      rw [if_pos (by omega)]
      have := ih n (by omega)
      simpa [Nat.succ_sub_succ] using this

-- Helper lemmas about marker scanning --------------------------------------

theorem matchesAt_false_of_head_ne {p : Char} {ps s : List Char}
    (h : ∀ c ∈ s, c ≠ p) : matchesAt (p :: ps) s = false := by
  cases s with
  | nil => rfl
  | cons c cs =>
    have : ¬(p == c) := by
      have := h c (by simp)
      simp [beq_iff_eq]
      intro hpc
      exact this hpc.symm
    simp [matchesAt, this]

theorem containsStr_false_of_no_head {p : Char} {ps s : List Char}
    (h : ∀ c ∈ s, c ≠ p) : containsStr s (p :: ps) = false := by
  induction s with
  | nil => rfl
  | cons c cs ih =>
    rw [containsStr]
    rw [matchesAt_false_of_head_ne h]
    rw [ih fun d hd => h d (by simp [hd])]
    rfl

theorem altExitMarker_head : altExitMarker = '\x1b' :: "[?1049l".toList := by decide

theorem containsStr_replicate_a_marker (n : Nat) :
    containsStr (List.replicate n 'a') altExitMarker = false := by
  rw [altExitMarker_head]
  apply containsStr_false_of_no_head
  intro c hc
  rw [List.eq_of_mem_replicate hc]
  decide

-- read_output / pollMany behavior ------------------------------------------

theorem read_output_raw_false {buf ch b : List Char} {r : Bool}
    (h : read_output false buf ch = some (r, b)) : r = false := by
  unfold read_output at h
  simp only [Bool.false_and, if_neg (by simp : ¬(false = true))] at h
  split at h <;> split at h <;> (try split at h) <;> simp_all

theorem read_output_no_marker_under_cap {raw : Bool} {buf ch : List Char}
    (hm : containsStr ch altExitMarker = false)
    (hlen : byteLen (buf ++ ch) ≤ 50000) :
    read_output raw buf ch = some (raw, buf ++ ch) := by
  unfold read_output
  rw [hm]
  simp only [Bool.false_and, Bool.false_eq_true]
  rw [if_neg not_false]
  rw [if_neg (by omega : ¬byteLen (buf ++ ch) > 50000)]
  simp

theorem read_output_no_marker_over_cap {raw : Bool} {buf ch : List Char}
    (hm : containsStr ch altExitMarker = false)
    (hlen : byteLen (buf ++ ch) > 50000) :
    read_output raw buf ch =
      (dropBytes (byteLen (buf ++ ch) - 50000) (buf ++ ch)).map fun b => (raw, b) := by
  unfold read_output
  rw [hm]
  simp only [Bool.false_and, Bool.false_eq_true]
  rw [if_neg not_false]
  rw [if_pos (by omega : byteLen (buf ++ ch) > 50000)]
  cases dropBytes (byteLen (buf ++ ch) - 50000) (buf ++ ch) <;> simp

theorem read_output_with_marker {raw : Bool} {buf ch : List Char}
    (hm : containsStr ch altExitMarker = true)
    (hlen : byteLen ch ≤ 50000) :
    read_output raw buf ch = some (false, ch) := by
  unfold read_output
  rw [hm]
  simp only [Bool.false_and, Bool.false_eq_true]
  rw [if_pos trivial]
  have hc : ¬byteLen ((false, ([] : List Char)).2 ++ ch) > 50000 := by
    show ¬byteLen ch > 50000
    omega
  rw [if_neg hc]
  rfl

theorem isSuffix_append_right {l l' t : List Char} (h : l <:+ l') : l ++ t <:+ l' ++ t := by
  obtain ⟨u, hu⟩ := h
  exact ⟨u, by rw [← hu, List.append_assoc]⟩

/-- Core invariant of marker-free feeds: a completed run of `read_output`
calls leaves the raw flag untouched, the buffer at the minimum of the cap
and the total fed, and the content a suffix of everything fed. -/
theorem pollMany_no_marker :
    ∀ (chunks : List (List Char)) (buf : List Char) (r : Bool) (b : List Char),
      (∀ ch ∈ chunks, containsStr ch altExitMarker = false) →
      byteLen buf ≤ 50000 →
      pollMany false buf chunks = some (r, b) →
      r = false ∧ byteLen b = min (byteLen buf + byteLen chunks.flatten) 50000 ∧
        b <:+ buf ++ chunks.flatten := by
  intro chunks
  induction chunks with
  | nil =>
    intro buf r b _ hbuf h
    simp [pollMany] at h
    obtain ⟨hr, hb⟩ := h
    subst hr hb
    simp [byteLen_nil]
    omega
  | cons ch rest ih =>
    intro buf r b hm hbuf h
    rw [pollMany] at h
    have hch : containsStr ch altExitMarker = false := hm ch (by simp)
    have hflat : byteLen (ch :: rest).flatten = byteLen ch + byteLen rest.flatten := by
      rw [List.flatten_cons, byteLen_append]
    by_cases hlen : byteLen (buf ++ ch) ≤ 50000
    · rw [read_output_no_marker_under_cap hch hlen] at h
      obtain ⟨hr, hblen, hsuf⟩ := ih (buf ++ ch) r b
        (fun d hd => hm d (by simp [hd])) (by omega) h
      refine ⟨hr, ?_, ?_⟩
      · rw [hblen, hflat, byteLen_append]
        omega
      · rw [List.flatten_cons, ← List.append_assoc]
        exact hsuf
    · push_neg at hlen
      rw [read_output_no_marker_over_cap hch hlen] at h
      cases hdrop : dropBytes (byteLen (buf ++ ch) - 50000) (buf ++ ch) with
      | none =>
        rw [hdrop] at h
        exact absurd h (by simp)
      | some bb =>
        rw [hdrop] at h
        simp only [Option.map_some'] at h
        obtain ⟨_, hlen1⟩ := dropBytes_byteLen hdrop
        have hbblen : byteLen bb = 50000 := by omega
        obtain ⟨hr, hblen, hsuf⟩ := ih bb r b
          (fun d hd => hm d (by simp [hd])) (by omega) h
        refine ⟨hr, ?_, ?_⟩
        · rw [hblen, hbblen, hflat]
          have hba : byteLen (buf ++ ch) = byteLen buf + byteLen ch := byteLen_append _ _
          omega
        · have h1 : bb <:+ buf ++ ch := dropBytes_suffix hdrop
          have h2 : bb ++ rest.flatten <:+ (buf ++ ch) ++ rest.flatten :=
            isSuffix_append_right h1
          refine hsuf.trans ?_
          rw [List.flatten_cons, ← List.append_assoc]
          exact h2

theorem pollMany_append (r : Bool) (b : List Char) (xs ys : List (List Char)) :
    pollMany r b (xs ++ ys) =
      match pollMany r b xs with
      | none => none
      | some (r', b') => pollMany r' b' ys := by
  induction xs generalizing r b with
  | nil => simp [pollMany]
  | cons ch rest ih =>
    rw [List.cons_append, pollMany, pollMany]
    cases read_output r b ch with
    | none => rfl
    | some p => exact ih p.1 p.2

theorem pollMany_under_cap_total :
    ∀ (chunks : List (List Char)) (buf : List Char),
      (∀ ch ∈ chunks, containsStr ch altExitMarker = false) →
      byteLen buf + byteLen chunks.flatten ≤ 50000 →
      pollMany false buf chunks = some (false, buf ++ chunks.flatten) := by
  intro chunks
  induction chunks with
  | nil => intro buf _ _; simp [pollMany]
  | cons ch rest ih =>
    intro buf hm hlen
    have hflat : byteLen (ch :: rest).flatten = byteLen ch + byteLen rest.flatten := by
      rw [List.flatten_cons, byteLen_append]
    have hstep : read_output false buf ch = some (false, buf ++ ch) :=
      read_output_no_marker_under_cap (hm ch (by simp))
        (by rw [byteLen_append]; omega)
    rw [pollMany, hstep]
    have := ih (buf ++ ch) (fun d hd => hm d (by simp [hd]))
      (by rw [byteLen_append]; omega)
    show pollMany false (buf ++ ch) rest = some (false, buf ++ (ch :: rest).flatten)
    rw [this, List.flatten_cons, List.append_assoc]

theorem byteLen_flatten_replicate (n : Nat) (l : List Char) :
    byteLen (List.replicate n l).flatten = n * byteLen l := by
  induction n with
  | zero => simp [byteLen]
  | succ n ih =>
    rw [List.replicate_succ, List.flatten_cons, byteLen_append, ih]
    ring

theorem dropBytes_one_twoByte (t : List Char) : dropBytes 1 (twoByteChar :: t) = none := by
  show dropBytes (0 + 1) (twoByteChar :: t) = none
  rw [dropBytes, utf8Width_twoByteChar]
  norm_num

theorem containsStr_twoByte_chunk_marker :
    containsStr (twoByteChar :: List.replicate 4094 'a') altExitMarker = false := by
  rw [altExitMarker_head]
  apply containsStr_false_of_no_head
  intro c hc
  rcases List.mem_cons.mp hc with h | h
  · subst h; decide
  · rw [List.eq_of_mem_replicate h]; decide

/-- C2: the buffer-cap eviction in `read_output` is *not* total.  Feeding
the child's output in reads of at most 4096 bytes — one two-byte UTF-8
character followed by 49999 ASCII bytes — drives the buffer to 50000
bytes; the next byte makes `read_output` slice the buffer at byte offset
1, inside the two-byte character, where the Rust code panics (modelled as
`none`). -/
theorem read_output_eviction_panics : pollMany false [] panicChunks = none := by
  set c1 : List Char := twoByteChar :: List.replicate 4094 'a' with hc1
  set front : List (List Char) :=
    c1 :: (List.replicate 11 (List.replicate 4096 'a') ++ [List.replicate 848 'a']) with hfront
  have hfront_eq : panicChunks = front ++ [['a']] := by
    rw [hfront, hc1, List.cons_append, List.append_assoc]
    rfl
  have hmfree : ∀ ch ∈ front, containsStr ch altExitMarker = false := by
    intro ch hch
    rw [hfront] at hch
    rcases List.mem_cons.mp hch with h | h
    · subst h; exact containsStr_twoByte_chunk_marker
    · rcases List.mem_append.mp h with h2 | h2
      · rw [List.eq_of_mem_replicate h2]
        exact containsStr_replicate_a_marker 4096
      · rw [List.mem_singleton.mp h2]
        exact containsStr_replicate_a_marker 848
  have hlen_c1 : byteLen c1 = 4096 := by
    rw [hc1, byteLen_cons, byteLen_replicate, utf8Width_twoByteChar, utf8Width_ascii_a]
  have h13 : byteLen ([List.replicate 848 'a'] : List (List Char)).flatten = 848 := by
    rw [List.flatten_cons, List.flatten_nil, List.append_nil, byteLen_replicate,
      utf8Width_ascii_a]
  have hreps : byteLen (List.replicate 11 (List.replicate 4096 'a')).flatten = 45056 := by
    rw [byteLen_flatten_replicate, byteLen_replicate, utf8Width_ascii_a]
  have hlen_front : byteLen front.flatten = 50000 := by
    rw [hfront, List.flatten_cons, List.flatten_append, byteLen_append, byteLen_append,
      hlen_c1, hreps, h13]
  have hpoll_front : pollMany false [] front = some (false, [] ++ front.flatten) :=
    pollMany_under_cap_total front [] hmfree (by rw [byteLen_nil, hlen_front])
  rw [hfront_eq, pollMany_append, hpoll_front]
  show pollMany false ([] ++ front.flatten) [['a']] = none
  rw [List.nil_append]
  have hB : ∃ t : List Char, front.flatten = twoByteChar :: t := by
    rw [hfront, List.flatten_cons, hc1, List.cons_append]
    exact ⟨_, rfl⟩
  obtain ⟨t, ht⟩ := hB
  have hover : byteLen (front.flatten ++ ['a']) = 50001 := by
    rw [byteLen_append, hlen_front, byteLen_cons, byteLen_nil, utf8Width_ascii_a]
  have hro : read_output false front.flatten ['a'] = none := by
    rw [read_output_no_marker_over_cap (by decide) (by rw [hover]; norm_num)]
    rw [hover]
    have hone : (50001 - 50000 : Nat) = 1 := rfl
    rw [hone, ht, List.cons_append, dropBytes_one_twoByte]
    rfl
  rw [pollMany, hro]

theorem read_output_replicate_step :
    read_output false [] (List.replicate 50001 'a') = some (false, List.replicate 50000 'a') := by
  have hgt : byteLen (([] : List Char) ++ List.replicate 50001 'a') > 50000 := by
    rw [List.nil_append, byteLen_replicate, utf8Width_ascii_a]
    norm_num
  rw [read_output_no_marker_over_cap (containsStr_replicate_a_marker 50001) hgt]
  rw [List.nil_append, byteLen_replicate, utf8Width_ascii_a]
  have hone : (50001 * 1 - 50000 : Nat) = 1 := by norm_num
  rw [hone, dropBytes_replicate_one utf8Width_ascii_a 1 50001 (by norm_num)]
  rfl

/-- C3 does not hold as stated: an over-cap feed whose last read carries
the alternate-screen-exit marker ends with the buffer at 8 bytes, not at
the 50000-byte cap, because `read_output` clears the buffer on that
marker before appending. -/
theorem buffer_cap_counterexample :
    byteLen capCexChunks.flatten > 50000 ∧
      pollMany false [] capCexChunks = some (false, altExitMarker) ∧
      byteLen altExitMarker ≠ 50000 := by
  refine ⟨?_, ?_, by decide⟩
  · show byteLen (List.replicate 50001 'a' :: [altExitMarker]).flatten > 50000
    rw [List.flatten_cons, byteLen_append, byteLen_replicate, utf8Width_ascii_a]
    have h8 : byteLen ([altExitMarker] : List (List Char)).flatten = 8 := by decide
    omega
  · have hstep2 : read_output false (List.replicate 50000 'a') altExitMarker =
        some (false, altExitMarker) :=
      read_output_with_marker (by decide) (by decide)
    show pollMany false [] [List.replicate 50001 'a', altExitMarker] =
      some (false, altExitMarker)
    rw [pollMany, read_output_replicate_step]
    show pollMany false (List.replicate 50000 'a') [altExitMarker] =
      some (false, altExitMarker)
    rw [pollMany, hstep2]
    show pollMany false altExitMarker [] = some (false, altExitMarker)
    rw [pollMany]

/-- C3 (amended): over any completed sequence of `read_output` calls in
which no read carries the alternate-screen-exit marker, the output buffer
never exceeds the 50000-byte cap; when the total fed exceeds the cap the
buffer ends at exactly the cap, and its content is always a suffix of the
concatenated decoded output. -/
theorem output_buffer_cap (chunks : List (List Char)) (r : Bool) (b : List Char)
    (hm : ∀ ch ∈ chunks, containsStr ch altExitMarker = false)
    (h : pollMany false [] chunks = some (r, b)) :
    byteLen b ≤ 50000 ∧ (byteLen chunks.flatten > 50000 → byteLen b = 50000) ∧
      b <:+ chunks.flatten := by
  obtain ⟨hr, hlen, hsuf⟩ :=
    pollMany_no_marker chunks [] r b hm (by rw [byteLen_nil]; omega) h
  rw [byteLen_nil] at hlen
  exact ⟨by omega, fun hgt => by omega, by simpa using hsuf⟩

theorem output_buffer_cap_witness :
    byteLen (List.replicate 50000 'a') ≤ 50000 ∧
      (byteLen ([List.replicate 50001 'a'] : List (List Char)).flatten > 50000 →
        byteLen (List.replicate 50000 'a') = 50000) ∧
      List.replicate 50000 'a' <:+ ([List.replicate 50001 'a'] : List (List Char)).flatten := by
  have hm : ∀ ch ∈ [List.replicate 50001 'a'], containsStr ch altExitMarker = false := by
    intro ch hch
    rw [List.mem_singleton.mp hch]
    exact containsStr_replicate_a_marker 50001
  have hpoll : pollMany false [] [List.replicate 50001 'a'] =
      some (false, List.replicate 50000 'a') := by
    rw [pollMany, read_output_replicate_step]
    show pollMany false (List.replicate 50000 'a') [] = some (false, List.replicate 50000 'a')
    rw [pollMany]
  exact output_buffer_cap [List.replicate 50001 'a'] false (List.replicate 50000 'a') hm hpoll

-- C1: command history ------------------------------------------------------

/-- C1 does not hold: the session keeps no command history at all.  From
the line-edit state with an empty input buffer (however many commands were
previously submitted), pressing Up does not load any previous command
into the input buffer — the buffer stays empty and the key is forwarded
to the child as the escape sequence ESC [ A. -/
theorem history_up_counterexample :
    (handle_keyboard_input initSession (.key .arrowUp ⟨false⟩)).command_buffer ≠ "pwd".toList ∧
      (handle_keyboard_input initSession (.key .arrowUp ⟨false⟩)).command_buffer = [] ∧
      (handle_keyboard_input initSession (.key .arrowUp ⟨false⟩)).sent = ["\x1b[A".toList] := by
  refine ⟨by decide, by decide, by decide⟩

/-- C1 (amended): in line-edit mode there is no local command history and
no history cursor.  Enter writes the buffer plus one newline to the child
and clears the buffer, recording nothing; Up and Down leave the input
buffer untouched and are forwarded to the child as ESC [ A and ESC [ B;
printable text appends to the buffer; Backspace drops its last
character. -/
theorem line_edit_no_history (st : SessionState) (hraw : st.raw_mode = false)
    (s : List Char) (mods : EModifiers) :
    handle_keyboard_input st (.key .arrowUp mods) =
        { st with sent := st.sent ++ ["\x1b[A".toList] } ∧
      handle_keyboard_input st (.key .arrowDown mods) =
        { st with sent := st.sent ++ ["\x1b[B".toList] } ∧
      (handle_keyboard_input st (.key .arrowUp mods)).command_buffer = st.command_buffer ∧
      (handle_keyboard_input st (.key .arrowDown mods)).command_buffer = st.command_buffer ∧
      handle_keyboard_input st (.key .enter mods) =
        { st with sent := st.sent ++ [st.command_buffer ++ ['\n']], command_buffer := [] } ∧
      handle_keyboard_input st (.text s) =
        { st with command_buffer := st.command_buffer ++ s } ∧
      handle_keyboard_input st (.key .backspace mods) =
        { st with command_buffer := st.command_buffer.dropLast } := by
  simp [handle_keyboard_input, hraw, handleKeyNormal, normalKeySeq, sendSeq]

theorem line_edit_no_history_witness :
    initSession.raw_mode = false ∧
      handle_keyboard_input initSession (.key .arrowUp ⟨false⟩) =
        { initSession with sent := ["\x1b[A".toList] } := by
  refine ⟨rfl, ?_⟩
  have h := (line_edit_no_history initSession rfl [] ⟨false⟩).1
  simpa using h

-- C4: the raw-mode flag ----------------------------------------------------

theorem handle_keyboard_input_raw_mode (st : SessionState) (e : TEvent) :
    (handle_keyboard_input st e).raw_mode = st.raw_mode := by
  cases e with
  | text s =>
    simp only [handle_keyboard_input]
    split <;> rfl
  | key k mods =>
    simp only [handle_keyboard_input]
    split
    · simp only [sendSeq]
      split <;> rfl
    · cases k <;> simp only [handleKeyNormal, sendSeq] <;> (try split) <;>
        (try split) <;> rfl

/-- C4: the raw-mode flag is false in every reachable session state — the
enter-raw-mode branch of `read_output` is guarded by a false condition and
the only live marker branch clears the flag — so the raw-mode dispatch
paths of `handle_keyboard_input` are never taken: every key event goes
through the line-edit handler and every text event appends to the command
buffer. -/
theorem raw_mode_never_true (s : SessionState) (h : Reachable s) :
    s.raw_mode = false ∧
      (∀ k mods, handle_keyboard_input s (.key k mods) = handleKeyNormal s k mods) ∧
      (∀ t, handle_keyboard_input s (.text t) =
        { s with command_buffer := s.command_buffer ++ t }) := by
  have hraw : s.raw_mode = false := by
    induction h with
    | init => rfl
    | read hr hstep ih =>
      rename_i s0 s1 chunk
      unfold sessionRead at hstep
      rw [ih] at hstep
      cases hro : read_output false s0.output_buffer chunk with
      | none => rw [hro] at hstep; exact absurd hstep (by simp)
      | some p =>
        rw [hro] at hstep
        have hs1 : s1 = { s0 with raw_mode := p.1, output_buffer := p.2 } := by
          cases p
          simpa using hstep.symm
        rw [hs1]
        cases p
        exact read_output_raw_false hro
    | input e hr ih =>
      rw [handle_keyboard_input_raw_mode]
      exact ih
  refine ⟨hraw, fun k mods => ?_, fun t => ?_⟩
  · simp [handle_keyboard_input, hraw]
  · simp [handle_keyboard_input, hraw]

theorem raw_mode_never_true_witness :
    initSession.raw_mode = false ∧
      handle_keyboard_input initSession (.key .enter ⟨false⟩) =
        handleKeyNormal initSession .enter ⟨false⟩ := by
  refine ⟨(raw_mode_never_true initSession Reachable.init).1, ?_⟩
  exact (raw_mode_never_true initSession Reachable.init).2.1 .enter ⟨false⟩

-- Parser step lemmas (the equations of the scanning loop) ------------------

theorem parseLoop_nil (cset : ColorSet) (d col : Color) (cur : List Char) (b : Bool) :
    parseLoop cset d [] col cur b = if cur = [] then [] else [⟨cur, col, b⟩] := by
  rw [parseLoop]

theorem parseLoop_text (cset : ColorSet) (d col : Color) (cur : List Char) (b : Bool)
    (c : Char) (rest : List Char) (hc : c ≠ '\x1b') :
    parseLoop cset d (c :: rest) col cur b = parseLoop cset d rest col (cur ++ [c]) b := by
  rw [parseLoop]
  exact hc

theorem parseLoop_csi (cset : ColorSet) (d col : Color) (cur : List Char) (b : Bool)
    (rest2 : List Char) :
    parseLoop cset d ('\x1b' :: '[' :: rest2) col cur b =
      (if cur = [] then [] else [⟨cur, col, b⟩]) ++
        (let code := (readCSI rest2).1
         let st := if isSGRParams code then applySGR cset d (col, b) code else (col, b)
         parseLoop cset d (readCSI rest2).2 st.1 [] st.2) := by
  rw [parseLoop]

theorem parseLoop_osc (cset : ColorSet) (d col : Color) (cur : List Char) (b : Bool)
    (rest2 : List Char) :
    parseLoop cset d ('\x1b' :: ']' :: rest2) col cur b =
      (if cur = [] then [] else [⟨cur, col, b⟩]) ++ parseLoop cset d (skipOSC rest2) col [] b := by
  rw [parseLoop]

theorem parseLoop_escOther (cset : ColorSet) (d col : Color) (cur : List Char) (b : Bool)
    (c : Char) (rest2 : List Char) (h1 : c ≠ '[') (h2 : c ≠ ']') :
    parseLoop cset d ('\x1b' :: c :: rest2) col cur b =
      (if cur = [] then [] else [⟨cur, col, b⟩]) ++ parseLoop cset d rest2 col [] b := by
  rw [parseLoop]
  all_goals first | exact h1 | exact h2

theorem parseLoop_escEnd (cset : ColorSet) (d col : Color) (cur : List Char) (b : Bool) :
    parseLoop cset d ['\x1b'] col cur b = (if cur = [] then [] else [⟨cur, col, b⟩]) := by
  rw [parseLoop]

-- SGR parameter handling ---------------------------------------------------

theorem digitSemi_not_term {c : Char} (h : (c.isDigit || c == ';') = true) :
    (c.isAlpha || c == 'm') = false := by
  rw [Bool.or_eq_true] at h
  rcases h with hd | hs
  · simp only [Char.isDigit, Bool.and_eq_true, decide_eq_true_eq] at hd
    obtain ⟨h48, h57⟩ := hd
    simp only [Char.isAlpha, Char.isUpper, Char.isLower, Bool.or_eq_false_iff,
      Bool.and_eq_false_iff, decide_eq_false_iff_not, not_le, beq_eq_false_iff_ne, ne_eq]
    refine ⟨⟨?_, ?_⟩, ?_⟩
    · exact Or.inl fun h65 => absurd (UInt32.le_trans h65 h57) (by decide)
    · exact Or.inl fun h97 => absurd (UInt32.le_trans h97 h57) (by decide)
    · intro hm
      subst hm
      revert h57
      decide
  · have hc : c = ';' := by simpa [beq_iff_eq] using hs
    subst hc
    decide

theorem readCSI_digits : ∀ (code rest : List Char), isSGRParams code = true →
    readCSI (code ++ 'm' :: rest) = (code, rest) := by
  intro code
  induction code with
  | nil => intro rest _; simp [readCSI]
  | cons c cs ih =>
    intro rest hall
    rw [isSGRParams, List.all_cons, Bool.and_eq_true] at hall
    obtain ⟨hc, hcs⟩ := hall
    rw [List.cons_append, readCSI]
    rw [digitSemi_not_term hc]
    simp only [Bool.false_eq_true, if_false]
    rw [ih rest hcs]

/-- A CSI parameter string of digits and semicolons is treated as SGR. -/
theorem parseLoop_sgr (cset : ColorSet) (d : Color) (code rest : List Char)
    (col : Color) (cur : List Char) (b : Bool) (hcode : isSGRParams code = true) :
    parseLoop cset d ('\x1b' :: '[' :: (code ++ 'm' :: rest)) col cur b =
      (if cur = [] then [] else [⟨cur, col, b⟩]) ++
        parseLoop cset d rest (applySGR cset d (col, b) code).1 []
          (applySGR cset d (col, b) code).2 := by
  rw [parseLoop_csi]
  rw [readCSI_digits code rest hcode]
  simp only [hcode, if_true]

theorem splitSemiAux_append (xs ys : List Char) :
    ∀ cur, splitSemiAux (xs ++ ';' :: ys) cur = splitSemiAux xs cur ++ splitSemi ys := by
  induction xs with
  | nil =>
    intro cur
    simp [splitSemiAux, splitSemi]
  | cons c cs ih =>
    intro cur
    rw [List.cons_append, splitSemiAux, splitSemiAux]
    by_cases hc : c = ';'
    · rw [if_pos hc, if_pos hc, ih, List.cons_append]
    · rw [if_neg hc, if_neg hc, ih]

/-- Later SGR codes in the same parameter list act on the state left by
earlier ones. -/
theorem applySGR_append (cset : ColorSet) (d : Color) (st : Color × Bool)
    (code1 code2 : List Char) :
    applySGR cset d st (code1 ++ ';' :: code2) =
      applySGR cset d (applySGR cset d st code1) code2 := by
  rw [applySGR, applySGR, applySGR, splitSemi, splitSemiAux_append, List.foldl_append]
  rfl

theorem applySGRPart_unrecognized (cset : ColorSet) (d : Color) (st : Color × Bool)
    (part : List Char)
    (h0 : part ≠ ['0']) (h00 : part ≠ ['0', '0'])
    (h1 : part ≠ ['1']) (h01 : part ≠ ['0', '1'])
    (h31 : part ≠ ['3', '1']) (h32 : part ≠ ['3', '2'])
    (h33 : part ≠ ['3', '3']) (h34 : part ≠ ['3', '4'])
    (h35 : part ≠ ['3', '5']) (h36 : part ≠ ['3', '6']) :
    applySGRPart cset d st part = st := by
  rw [applySGRPart, if_neg h0, if_neg h00, if_neg h1, if_neg h01, if_neg h31, if_neg h32,
    if_neg h33, if_neg h34, if_neg h35, if_neg h36]

/-- C7: CSI parameter strings of digits and `;` are treated as SGR: the
codes `0`/`00` reset color and bold, `1`/`01` set bold, `31`–`36` select
the palette roles alert/primary/warning/alternate_1/alternate_2/
alternate_3, any other code is ignored, and later codes in one list act
on the state left by earlier ones; concretely,
`parse("\x1b[31mHELLO\x1b[0mWORLD")` is HELLO in `alert` then WORLD in
the default color, both non-bold. -/
theorem sgr_codes_spec (cset : ColorSet) (d : Color) :
    (∀ st : Color × Bool,
      applySGRPart cset d st ['0'] = (d, false) ∧
      applySGRPart cset d st ['0', '0'] = (d, false) ∧
      applySGRPart cset d st ['1'] = (st.1, true) ∧
      applySGRPart cset d st ['0', '1'] = (st.1, true) ∧
      applySGRPart cset d st ['3', '1'] = (cset.alert, st.2) ∧
      applySGRPart cset d st ['3', '2'] = (cset.primary, st.2) ∧
      applySGRPart cset d st ['3', '3'] = (cset.warning, st.2) ∧
      applySGRPart cset d st ['3', '4'] = (cset.alternate_1, st.2) ∧
      applySGRPart cset d st ['3', '5'] = (cset.alternate_2, st.2) ∧
      applySGRPart cset d st ['3', '6'] = (cset.alternate_3, st.2)) ∧
    (∀ (st : Color × Bool) (part : List Char),
      part ≠ ['0'] → part ≠ ['0', '0'] → part ≠ ['1'] → part ≠ ['0', '1'] →
      part ≠ ['3', '1'] → part ≠ ['3', '2'] → part ≠ ['3', '3'] → part ≠ ['3', '4'] →
      part ≠ ['3', '5'] → part ≠ ['3', '6'] →
      applySGRPart cset d st part = st) ∧
    (∀ (st : Color × Bool) (code1 code2 : List Char),
      applySGR cset d st (code1 ++ ';' :: code2) =
        applySGR cset d (applySGR cset d st code1) code2) ∧
    (∀ (code rest : List Char) (col : Color) (cur : List Char) (b : Bool),
      isSGRParams code = true →
      parseLoop cset d ('\x1b' :: '[' :: (code ++ 'm' :: rest)) col cur b =
        (if cur = [] then [] else [⟨cur, col, b⟩]) ++
          parseLoop cset d rest (applySGR cset d (col, b) code).1 []
            (applySGR cset d (col, b) code).2) ∧
    parse_ansi_output "\x1b[31mHELLO\x1b[0mWORLD".toList cset d =
      [⟨"HELLO".toList, cset.alert, false⟩, ⟨"WORLD".toList, d, false⟩] := by
  refine ⟨fun st => ?_, applySGRPart_unrecognized cset d, applySGR_append cset d,
    parseLoop_sgr cset d, ?_⟩
  · exact ⟨rfl, rfl, rfl, rfl, rfl, rfl, rfl, rfl, rfl, rfl⟩
  · rw [show "\x1b[31mHELLO\x1b[0mWORLD".toList =
      ['\x1b', '[', '3', '1', 'm', 'H', 'E', 'L', 'L', 'O', '\x1b', '[', '0', 'm',
        'W', 'O', 'R', 'L', 'D'] from rfl]
    have h1 : readCSI ['3', '1', 'm', 'H', 'E', 'L', 'L', 'O', '\x1b', '[', '0', 'm',
        'W', 'O', 'R', 'L', 'D'] = (['3', '1'],
        ['H', 'E', 'L', 'L', 'O', '\x1b', '[', '0', 'm', 'W', 'O', 'R', 'L', 'D']) := by
      decide
    have h2 : applySGR cset d (d, false) ['3', '1'] = (cset.alert, false) := rfl
    have h3 : readCSI ['0', 'm', 'W', 'O', 'R', 'L', 'D'] =
        (['0'], ['W', 'O', 'R', 'L', 'D']) := by decide
    have h4 : applySGR cset d (cset.alert, false) ['0'] = (d, false) := rfl
    simp +decide only [parse_ansi_output, parseLoop_text, parseLoop_csi, parseLoop_nil,
      h1, h2, h3, h4, if_true, if_false, List.nil_append, List.append_nil]
    rfl

theorem sgr_codes_spec_witness :
    parseLoop samplePalette sampleDefault
        ('\x1b' :: '[' :: (['3', '1'] ++ 'm' :: [])) sampleDefault [] false =
      (if ([] : List Char) = [] then [] else [⟨[], sampleDefault, false⟩]) ++
        parseLoop samplePalette sampleDefault []
          (applySGR samplePalette sampleDefault (sampleDefault, false) ['3', '1']).1 []
          (applySGR samplePalette sampleDefault (sampleDefault, false) ['3', '1']).2 :=
  (sgr_codes_spec samplePalette sampleDefault).2.2.2.1 ['3', '1'] [] sampleDefault [] false
    (by decide)

-- Order preservation and flushing (C5), plain text (C6) --------------------

theorem readCSI_rest_length : ∀ cs : List Char, (readCSI cs).2.length ≤ cs.length := by
  intro cs
  induction cs with
  | nil => simp [readCSI]
  | cons c cs ih =>
    simp only [readCSI]
    split
    · simp
    · simpa using Nat.le_succ_of_le ih

theorem skipOSC_length : ∀ cs : List Char, (skipOSC cs).length ≤ cs.length := by
  intro cs
  induction cs using skipOSC.induct <;> simp [skipOSC] <;> omega

theorem plainText_nil : plainText [] = [] := by rw [plainText]

theorem plainText_text {c : Char} (rest : List Char) (hc : c ≠ '\x1b') :
    plainText (c :: rest) = c :: plainText rest := by
  rw [plainText]
  exact hc

theorem plainText_csi (rest2 : List Char) :
    plainText ('\x1b' :: '[' :: rest2) = plainText (readCSI rest2).2 := by
  rw [plainText]

theorem plainText_osc (rest2 : List Char) :
    plainText ('\x1b' :: ']' :: rest2) = plainText (skipOSC rest2) := by
  rw [plainText]

theorem plainText_escOther {c : Char} (rest2 : List Char) (h1 : c ≠ '[') (h2 : c ≠ ']') :
    plainText ('\x1b' :: c :: rest2) = plainText rest2 := by
  rw [plainText]
  all_goals first | exact h1 | exact h2

theorem plainText_escEnd : plainText ['\x1b'] = [] := by rw [plainText]

theorem flush_textFlatten (cur : List Char) (col : Color) (b : Bool) :
    (((if cur = [] then [] else [(⟨cur, col, b⟩ : TerminalOutput)]).map
      TerminalOutput.text).flatten : List Char) = cur := by
  by_cases hcur : cur = [] <;> simp [hcur]

theorem parseLoop_textConcat (cset : ColorSet) (d : Color) :
    ∀ (n : Nat) (cs : List Char), cs.length ≤ n → ∀ (col : Color) (cur : List Char) (b : Bool),
      ((parseLoop cset d cs col cur b).map TerminalOutput.text).flatten =
        cur ++ plainText cs := by
  intro n
  induction n with
  | zero =>
    intro cs hcs col cur b
    have hnil : cs = [] := List.length_eq_zero.mp (Nat.le_zero.mp hcs)
    subst hnil
    rw [parseLoop_nil, plainText_nil, List.append_nil, flush_textFlatten]
  | succ n ih =>
    intro cs hcs col cur b
    rcases cs with _ | ⟨c, rest⟩
    · rw [parseLoop_nil, plainText_nil, List.append_nil, flush_textFlatten]
    · by_cases hc : c = '\x1b'
      · subst hc
        rcases rest with _ | ⟨c2, rest2⟩
        · rw [parseLoop_escEnd, plainText_escEnd, List.append_nil, flush_textFlatten]
        · simp only [List.length_cons] at hcs
          by_cases h2 : c2 = '['
          · subst h2
            rw [parseLoop_csi, plainText_csi, List.map_append, List.flatten_append,
              flush_textFlatten]
            have hlen : (readCSI rest2).2.length ≤ n :=
              le_trans (readCSI_rest_length rest2) (by omega)
            rw [ih _ hlen]
            rw [List.nil_append]
          · by_cases h3 : c2 = ']'
            · subst h3
              rw [parseLoop_osc, plainText_osc, List.map_append, List.flatten_append,
                flush_textFlatten]
              have hlen : (skipOSC rest2).length ≤ n :=
                le_trans (skipOSC_length rest2) (by omega)
              rw [ih _ hlen]
              rw [List.nil_append]
            · rw [parseLoop_escOther cset d col cur b c2 rest2 h2 h3,
                plainText_escOther rest2 h2 h3, List.map_append, List.flatten_append,
                flush_textFlatten]
              have hlen : rest2.length ≤ n := by omega
              rw [ih _ hlen]
              rw [List.nil_append]
      · rw [parseLoop_text cset d col cur b c rest hc, plainText_text rest hc]
        simp only [List.length_cons] at hcs
        rw [ih rest (by omega) col (cur ++ [c]) b]
        rw [List.append_assoc, List.singleton_append]

/-- C5 (amended): `parse_ansi_output` preserves input order and flushes
the trailing partial segment — the concatenation of the returned segment
texts is exactly the input with its escape sequences removed.  (A new
segment is opened at every escape sequence, so two consecutive segments
*can* carry the same (color, bold); see the counterexample.) -/
theorem parse_order_and_flush (out : List Char) (cset : ColorSet) (d : Color) :
    ((parse_ansi_output out cset d).map TerminalOutput.text).flatten = plainText out := by
  have h := parseLoop_textConcat cset d out.length out le_rfl d [] false
  rw [parse_ansi_output, h, List.nil_append]

/-- C5 does not hold as stated: an SGR sequence that leaves the style
unchanged still splits the text into two segments, so `parse("A\x1b[0mB")`
returns two consecutive segments with the identical (color, bold). -/
theorem adjacent_style_counterexample :
    parse_ansi_output "A\x1b[0mB".toList samplePalette sampleDefault =
      [⟨['A'], sampleDefault, false⟩, ⟨['B'], sampleDefault, false⟩] ∧
      noAdjacentSameStyle
        (parse_ansi_output "A\x1b[0mB".toList samplePalette sampleDefault) = false := by
  have heval : parse_ansi_output "A\x1b[0mB".toList samplePalette sampleDefault =
      [⟨['A'], sampleDefault, false⟩, ⟨['B'], sampleDefault, false⟩] := by
    rw [show "A\x1b[0mB".toList = ['A', '\x1b', '[', '0', 'm', 'B'] from rfl]
    have h1 : readCSI ['0', 'm', 'B'] = (['0'], ['B']) := by decide
    have h2 : applySGR samplePalette sampleDefault (sampleDefault, false) ['0'] =
        (sampleDefault, false) := by decide
    simp +decide only [parse_ansi_output, parseLoop_text, parseLoop_csi, parseLoop_nil,
      h1, h2, if_true, if_false, List.nil_append, List.append_nil]
  refine ⟨heval, ?_⟩
  rw [heval]
  decide

theorem parseLoop_noEsc (cset : ColorSet) (d : Color) :
    ∀ (cs : List Char), (∀ c ∈ cs, c ≠ '\x1b') → ∀ (col : Color) (cur : List Char) (b : Bool),
      parseLoop cset d cs col cur b =
        if cur ++ cs = [] then [] else [⟨cur ++ cs, col, b⟩] := by
  intro cs
  induction cs with
  | nil =>
    intro _ col cur b
    rw [parseLoop_nil, List.append_nil]
  | cons c rest ih =>
    intro hesc col cur b
    rw [parseLoop_text cset d col cur b c rest (hesc c (by simp))]
    rw [ih (fun x hx => hesc x (by simp [hx])) col (cur ++ [c]) b]
    rw [List.append_assoc, List.singleton_append]

/-- C6 does not hold as stated for the empty string: the empty input
contains no escape marker, yet the parser returns zero segments rather
than one segment whose text equals the input. -/
theorem plain_text_empty_counterexample :
    parse_ansi_output [] samplePalette sampleDefault = [] ∧
      (parse_ansi_output [] samplePalette sampleDefault).length ≠ 1 := by
  have h : parse_ansi_output [] samplePalette sampleDefault = [] := by
    rw [parse_ansi_output, parseLoop_nil, if_pos rfl]
  exact ⟨h, by rw [h]; decide⟩

/-- C6 (amended): for every *nonempty* string with no escape marker,
`parse_ansi_output` returns exactly one segment carrying the whole input,
the default color, and bold off. -/
theorem parse_plain_text (s : List Char) (cset : ColorSet) (d : Color)
    (hne : s ≠ []) (hesc : ∀ c ∈ s, c ≠ '\x1b') :
    parse_ansi_output s cset d = [⟨s, d, false⟩] := by
  rw [parse_ansi_output, parseLoop_noEsc cset d s hesc d [] false, List.nil_append,
    if_neg hne]

theorem parse_plain_text_witness :
    parse_ansi_output "hi".toList samplePalette sampleDefault =
      [⟨"hi".toList, sampleDefault, false⟩] :=
  parse_plain_text "hi".toList samplePalette sampleDefault (by decide) (by decide)

-- Pane multiplexer lemmas --------------------------------------------------

theorem updateAt_map {g : MTerm → α} {f : MTerm → MTerm} (hfg : ∀ t, g (f t) = g t) :
    ∀ (ts : List MTerm) (i : Nat), (updateAt ts i f).map g = ts.map g := by
  intro ts
  induction ts with
  | nil => intro i; cases i <;> rfl
  | cons t ts ih =>
    intro i
    cases i with
    | zero => simp [updateAt, hfg]
    | succ i => simp [updateAt, ih]

theorem updateAt_length (f : MTerm → MTerm) :
    ∀ (ts : List MTerm) (i : Nat), (updateAt ts i f).length = ts.length := by
  intro ts
  induction ts with
  | nil => intro i; cases i <;> rfl
  | cons t ts ih =>
    intro i
    cases i with
    | zero => simp [updateAt]
    | succ i => simp [updateAt, ih]

theorem setSizes_map {g : MTerm → α} (hg : ∀ t w h, g { t with width := w, height := h } = g t)
    (w h : ℚ) : ∀ (idxs : List Nat) (ts : List MTerm),
    (setSizes ts idxs w h).map g = ts.map g := by
  intro idxs
  induction idxs with
  | nil => intro ts; rfl
  | cons i idxs ih =>
    intro ts
    rw [setSizes, List.foldl_cons]
    have := ih (updateAt ts i fun t => { t with width := w, height := h })
    rw [setSizes] at this
    rw [this, updateAt_map (fun t => hg t w h)]

theorem resize_terminals_map {g : MTerm → α}
    (hg : ∀ t w h, g { t with width := w, height := h } = g t) (m : TerminalManager)
    (aw ah : ℚ) : (resize_terminals m aw ah).terminals.map g = m.terminals.map g := by
  rw [resize_terminals]
  simp only
  rw [setSizes_map hg, setSizes_map hg]

theorem resize_terminals_fields (m : TerminalManager) (aw ah : ℚ) :
    (resize_terminals m aw ah).active_terminal_id = m.active_terminal_id ∧
      (resize_terminals m aw ah).top_row_terminals = m.top_row_terminals ∧
      (resize_terminals m aw ah).bottom_row_terminals = m.bottom_row_terminals ∧
      (resize_terminals m aw ah).num_terminals = m.num_terminals := by
  rw [resize_terminals]
  exact ⟨rfl, rfl, rfl, rfl⟩

theorem rearrange_terminals_fields (m : TerminalManager) :
    (rearrange_terminals m).terminals = m.terminals ∧
      (rearrange_terminals m).active_terminal_id = m.active_terminal_id ∧
      (rearrange_terminals m).num_terminals = m.num_terminals := by
  rw [rearrange_terminals]
  split <;> exact ⟨rfl, rfl, rfl⟩

theorem rearrange_terminals_rows (m : TerminalManager) :
    (rearrange_terminals m).top_row_terminals =
      (if m.num_terminals ≤ 2 then List.range m.num_terminals
       else List.range (m.num_terminals / 2)) ∧
      (rearrange_terminals m).bottom_row_terminals =
        (if m.num_terminals ≤ 2 then []
         else List.range' (m.num_terminals / 2)
           (m.num_terminals - m.num_terminals / 2)) := by
  rw [rearrange_terminals]
  split <;> exact ⟨rfl, rfl⟩

theorem updateAt_get_self (f : MTerm → MTerm) :
    ∀ (ts : List MTerm) (i : Nat), (updateAt ts i f).get? i = (ts.get? i).map f := by
  intro ts
  induction ts with
  | nil => intro i; cases i <;> rfl
  | cons t ts ih =>
    intro i
    cases i with
    | zero => rfl
    | succ i => exact ih i

theorem updateAt_get_ne (f : MTerm → MTerm) :
    ∀ (ts : List MTerm) (i j : Nat), j ≠ i → (updateAt ts i f).get? j = ts.get? j := by
  intro ts
  induction ts with
  | nil => intro i j _; cases i <;> rfl
  | cons t ts ih =>
    intro i j hne
    cases i with
    | zero =>
      cases j with
      | zero => exact absurd rfl hne
      | succ j => rfl
    | succ i =>
      cases j with
      | zero => rfl
      | succ j => exact ih i j (by omega)

theorem setSizes_cons (ts : List MTerm) (i : Nat) (idxs : List Nat) (w h : ℚ) :
    setSizes ts (i :: idxs) w h =
      setSizes (updateAt ts i fun t => { t with width := w, height := h }) idxs w h := by
  rw [setSizes, setSizes, List.foldl_cons]

theorem setSizes_get_not_mem (w h : ℚ) :
    ∀ (idxs : List Nat) (ts : List MTerm) (j : Nat), j ∉ idxs →
      (setSizes ts idxs w h).get? j = ts.get? j := by
  intro idxs
  induction idxs with
  | nil => intro ts j _; rfl
  | cons i idxs ih =>
    intro ts j hj
    rw [setSizes_cons]
    rw [ih _ j fun hm => hj (by simp [hm])]
    exact updateAt_get_ne _ ts i j fun he => hj (by simp [he])

theorem setSizes_get_mem (w h : ℚ) :
    ∀ (idxs : List Nat) (ts : List MTerm) (j : Nat) (t : MTerm), j ∈ idxs →
      (setSizes ts idxs w h).get? j = some t → t.width = w ∧ t.height = h := by
  intro idxs
  induction idxs with
  | nil => intro ts j t hj _; exact absurd hj (List.not_mem_nil j)
  | cons i idxs ih =>
    intro ts j t hj hget
    rw [setSizes_cons] at hget
    by_cases hjin : j ∈ idxs
    · exact ih _ j t hjin hget
    · have hji : j = i := by
        rcases List.mem_cons.mp hj with h | h
        · exact h
        · exact absurd h hjin
      subst hji
      rw [setSizes_get_not_mem w h idxs _ j hjin, updateAt_get_self] at hget
      cases hts : ts.get? j with
      | none => rw [hts] at hget; exact absurd hget (by simp)
      | some t0 =>
        rw [hts] at hget
        simp only [Option.map_some', Option.some.injEq] at hget
        rw [← hget]
        exact ⟨rfl, rfl⟩

/-- Geometry after `resize_terminals`: every pane in the top row gets the
top-row width `(aw − 2·topCount)/topCount` and the top-row height (half
when a bottom row is populated, full otherwise); every pane in the bottom
row gets the analogous bottom-row width and half the height. -/
theorem resize_terminals_geometry (m : TerminalManager) (aw ah : ℚ) :
    (∀ j ∈ m.top_row_terminals, j ∉ m.bottom_row_terminals → ∀ t : MTerm,
      (resize_terminals m aw ah).terminals.get? j = some t →
      t.width = (aw - 2 * ((max m.top_row_terminals.length 1 : Nat) : ℚ)) /
          ((max m.top_row_terminals.length 1 : Nat) : ℚ) ∧
      t.height = (if m.bottom_row_terminals.length > 0 then ah / 2 else ah)) ∧
    (∀ j ∈ m.bottom_row_terminals, ∀ t : MTerm,
      (resize_terminals m aw ah).terminals.get? j = some t →
      t.width = (if m.bottom_row_terminals.length > 0 then
          (aw - 2 * ((max m.bottom_row_terminals.length 1 : Nat) : ℚ)) /
            ((max m.bottom_row_terminals.length 1 : Nat) : ℚ)
        else aw) ∧
      t.height = ah / 2) := by
  constructor
  · intro j hj hjb t hget
    rw [resize_terminals] at hget
    simp only at hget
    rw [setSizes_get_not_mem _ _ _ _ j hjb] at hget
    exact setSizes_get_mem _ _ _ _ j t hj hget
  · intro j hj t hget
    rw [resize_terminals] at hget
    simp only at hget
    exact setSizes_get_mem _ _ _ _ j t hj hget

theorem rearrange_rows_disjoint (m : TerminalManager) :
    ∀ j ∈ (rearrange_terminals m).top_row_terminals,
      j ∉ (rearrange_terminals m).bottom_row_terminals := by
  obtain ⟨htop, hbot⟩ := rearrange_terminals_rows m
  rw [htop, hbot]
  by_cases hle : m.num_terminals ≤ 2
  · rw [if_pos hle, if_pos hle]
    intro j _
    exact List.not_mem_nil j
  · rw [if_neg hle, if_neg hle]
    intro j hj hj2
    rw [List.mem_range] at hj
    obtain ⟨i, hi, hji⟩ := List.mem_range'.mp hj2
    omega

/-- C8: `add_terminal` rejects at six live panes, leaving the whole
manager state (sessions, rows, active slot) unchanged; below the cap it
returns the new slot id (the old live count), appends the new session —
active exactly when it is the first pane — updates the active slot only
for a first pane, re-partitions the rows for the new count, and
recomputes geometry: every pane in the top row gets the top-row width
and height and every pane in the bottom row the bottom-row width and
height, per the `resize_terminals` formulas. -/
theorem add_terminal_spec (m : TerminalManager) (aw ah : ℚ) :
    (m.num_terminals = 6 → add_terminal m aw ah = (m, none)) ∧
    (m.num_terminals < 6 →
      (add_terminal m aw ah).2 = some m.num_terminals ∧
      ((add_terminal m aw ah).1.terminals.map fun t => (t.id, t.is_active)) =
        (m.terminals.map fun t => (t.id, t.is_active)) ++
          [(m.num_terminals, decide (m.num_terminals = 0))] ∧
      (add_terminal m aw ah).1.active_terminal_id =
        (if m.num_terminals = 0 then some 0 else m.active_terminal_id) ∧
      (add_terminal m aw ah).1.top_row_terminals =
        (if m.num_terminals + 1 ≤ 2 then List.range (m.num_terminals + 1)
         else List.range ((m.num_terminals + 1) / 2)) ∧
      (add_terminal m aw ah).1.bottom_row_terminals =
        (if m.num_terminals + 1 ≤ 2 then []
         else List.range' ((m.num_terminals + 1) / 2)
           ((m.num_terminals + 1) - (m.num_terminals + 1) / 2)) ∧
      (∀ j ∈ (add_terminal m aw ah).1.top_row_terminals, ∀ t : MTerm,
        (add_terminal m aw ah).1.terminals.get? j = some t →
        t.width = (aw - 2 *
              ((max (add_terminal m aw ah).1.top_row_terminals.length 1 : Nat) : ℚ)) /
            ((max (add_terminal m aw ah).1.top_row_terminals.length 1 : Nat) : ℚ) ∧
        t.height = (if (add_terminal m aw ah).1.bottom_row_terminals.length > 0 then ah / 2
          else ah)) ∧
      (∀ j ∈ (add_terminal m aw ah).1.bottom_row_terminals, ∀ t : MTerm,
        (add_terminal m aw ah).1.terminals.get? j = some t →
        t.width = (if (add_terminal m aw ah).1.bottom_row_terminals.length > 0 then
            (aw - 2 *
                ((max (add_terminal m aw ah).1.bottom_row_terminals.length 1 : Nat) : ℚ)) /
              ((max (add_terminal m aw ah).1.bottom_row_terminals.length 1 : Nat) : ℚ)
          else aw) ∧
        t.height = ah / 2)) := by
  constructor
  · intro h6
    rw [add_terminal, if_pos (by omega)]
  · intro hlt
    have hM : ∃ m1 : TerminalManager,
        (add_terminal m aw ah).1 = resize_terminals (rearrange_terminals m1) aw ah := by
      rw [add_terminal, if_neg (by omega : ¬m.num_terminals + 1 > 6)]
      exact ⟨_, rfl⟩
    obtain ⟨m1, hM⟩ := hM
    refine ⟨?_, ?_, ?_, ?_, ?_, ?_, ?_⟩
    · rw [add_terminal, if_neg (by omega : ¬m.num_terminals + 1 > 6)]
      show some (m.num_terminals + 1 - 1) = some m.num_terminals
      rw [Nat.add_sub_cancel]
    · rw [add_terminal, if_neg (by omega : ¬m.num_terminals + 1 > 6)]
      show ((resize_terminals (rearrange_terminals _) aw ah).terminals.map
          fun (t : MTerm) => (t.id, t.is_active)) = _
      rw [@resize_terminals_map _ (fun t => (t.id, t.is_active)) (fun _ _ _ => rfl) _ aw ah]
      rw [(rearrange_terminals_fields _).1]
      show ((m.terminals ++ [_]).map fun (t : MTerm) => (t.id, t.is_active)) = _
      rw [List.map_append]
      by_cases hz : m.num_terminals = 0
      · simp [hz, mkTerminal]
      · simp [hz, mkTerminal]
    · rw [add_terminal, if_neg (by omega : ¬m.num_terminals + 1 > 6)]
      show (resize_terminals (rearrange_terminals _) aw ah).active_terminal_id = _
      rw [(resize_terminals_fields _ aw ah).1, (rearrange_terminals_fields _).2.1]
      by_cases hz : m.num_terminals = 0
      · simp [hz]
      · simp [hz]
    · rw [add_terminal, if_neg (by omega : ¬m.num_terminals + 1 > 6)]
      show (resize_terminals (rearrange_terminals _) aw ah).top_row_terminals = _
      rw [(resize_terminals_fields _ aw ah).2.1, (rearrange_terminals_rows _).1]
    · rw [add_terminal, if_neg (by omega : ¬m.num_terminals + 1 > 6)]
      show (resize_terminals (rearrange_terminals _) aw ah).bottom_row_terminals = _
      rw [(resize_terminals_fields _ aw ah).2.2.1, (rearrange_terminals_rows _).2]
    · rw [hM, (resize_terminals_fields (rearrange_terminals m1) aw ah).2.1,
        (resize_terminals_fields (rearrange_terminals m1) aw ah).2.2.1]
      intro j hj t hget
      exact (resize_terminals_geometry (rearrange_terminals m1) aw ah).1 j hj
        (rearrange_rows_disjoint m1 j hj) t hget
    · rw [hM, (resize_terminals_fields (rearrange_terminals m1) aw ah).2.2.1]
      intro j hj t hget
      exact (resize_terminals_geometry (rearrange_terminals m1) aw ah).2 j hj t hget

theorem add_terminal_spec_witness :
    add_terminal manager6 300 200 = (manager6, none) ∧
      (add_terminal defaultManager 300 200).2 = some 0 ∧
      ((add_terminal defaultManager 300 200).1.terminals.get? 0).map
        (fun t => (t.width, t.height)) = some (298, 200) := by
  refine ⟨(add_terminal_spec manager6 300 200).1 rfl, ?_, ?_⟩
  · exact ((add_terminal_spec defaultManager 300 200).2 (by decide)).1
  · have h := (add_terminal_spec defaultManager 300 200).2 (by decide)
    have hgeo := h.2.2.2.2.2.1
    cases hget : (add_terminal defaultManager 300 200).1.terminals.get? 0 with
    | none => exact absurd hget (by decide)
    | some t =>
      obtain ⟨hw, hh⟩ := hgeo 0 (by decide) t hget
      have hlt : (add_terminal defaultManager 300 200).1.top_row_terminals.length = 1 := by
        decide
      have hlb : (add_terminal defaultManager 300 200).1.bottom_row_terminals.length = 0 := by
        decide
      rw [hlt] at hw
      rw [hlb] at hh
      simp only [Option.map_some', Option.some.injEq]
      rw [hw, hh]
      norm_num [max_self]

/-- C10: after `rearrange_terminals` with N live sessions (1 ≤ N ≤ 6) the
top row holds N slots when N ≤ 2 and N/2 (integer division) otherwise,
the bottom row holds the remaining N − top slots, and every live slot
appears in exactly one of the two rows. -/
theorem arrange_rows_spec (m : TerminalManager) (h1 : 1 ≤ m.num_terminals)
    (h6 : m.num_terminals ≤ 6) :
    (rearrange_terminals m).top_row_terminals.length =
      (if m.num_terminals ≤ 2 then m.num_terminals else m.num_terminals / 2) ∧
      (rearrange_terminals m).bottom_row_terminals.length =
        m.num_terminals - (rearrange_terminals m).top_row_terminals.length ∧
      (rearrange_terminals m).top_row_terminals ++
          (rearrange_terminals m).bottom_row_terminals = List.range m.num_terminals ∧
      ∀ s : Nat, ((rearrange_terminals m).top_row_terminals ++
          (rearrange_terminals m).bottom_row_terminals).count s =
        if s < m.num_terminals then 1 else 0 := by
  obtain ⟨htop, hbot⟩ := rearrange_terminals_rows m
  have hcount : ∀ s : Nat, (List.range m.num_terminals).count s =
      if s < m.num_terminals then 1 else 0 := by
    intro s
    by_cases hs : s < m.num_terminals
    · rw [if_pos hs]
      exact List.count_eq_one_of_mem (List.nodup_range _) (List.mem_range.mpr hs)
    · rw [if_neg hs]
      exact List.count_eq_zero_of_not_mem fun hmem => hs (List.mem_range.mp hmem)
  by_cases hle : m.num_terminals ≤ 2
  · rw [htop, hbot, if_pos hle, if_pos hle, if_pos hle]
    refine ⟨by rw [List.length_range], ?_, by rw [List.append_nil], ?_⟩
    · rw [List.length_range]
      simp
    · intro s
      rw [List.append_nil]
      exact hcount s
  · rw [htop, hbot, if_neg hle, if_neg hle, if_neg hle]
    have hjoin : List.range (m.num_terminals / 2) ++
        List.range' (m.num_terminals / 2) (m.num_terminals - m.num_terminals / 2) =
        List.range m.num_terminals := by
      rw [List.range_eq_range', List.range_eq_range']
      have h2 := List.range'_append_1 0 (m.num_terminals / 2)
        (m.num_terminals - m.num_terminals / 2)
      rw [Nat.zero_add] at h2
      rw [h2]
      congr 1
      omega
    refine ⟨by rw [List.length_range], ?_, hjoin, ?_⟩
    · rw [List.length_range, List.length_range']
    · intro s
      rw [hjoin]
      exact hcount s

theorem arrange_rows_spec_witness :
    (rearrange_terminals manager5).top_row_terminals ++
        (rearrange_terminals manager5).bottom_row_terminals = List.range 5 ∧
      (rearrange_terminals manager5).top_row_terminals.length = 2 := by
  have h := arrange_rows_spec manager5 (by decide) (by decide)
  exact ⟨h.2.2.1, h.1⟩

theorem renumberFrom_map_id : ∀ (ts : List MTerm) (k : Nat),
    (renumberFrom k ts).map MTerm.id = List.range' k ts.length := by
  intro ts
  induction ts with
  | nil => intro k; rfl
  | cons t ts ih =>
    intro k
    rw [renumberFrom, List.map_cons, ih, List.length_cons, List.range'_succ]

theorem renumberFrom_map_hue : ∀ (ts : List MTerm) (k : Nat),
    (renumberFrom k ts).map MTerm.hue = ts.map MTerm.hue := by
  intro ts
  induction ts with
  | nil => intro k; rfl
  | cons t ts ih =>
    intro k
    rw [renumberFrom, List.map_cons, List.map_cons, ih]

theorem renumberFrom_nil {k : Nat} {ts : List MTerm} (h : renumberFrom k ts = []) :
    ts = [] := by
  cases ts with
  | nil => rfl
  | cons t ts => rw [renumberFrom] at h; exact absurd h (by simp)

theorem set_active_terminal_map {g : MTerm → α}
    (hg : ∀ (t : MTerm) (b : Bool), g { t with is_active := b } = g t)
    (m : TerminalManager) (i : Nat) :
    (set_active_terminal m i).terminals.map g = m.terminals.map g := by
  rw [set_active_terminal]
  cases hget : (m.terminals.map fun t => { t with is_active := false }).get? i with
  | none =>
    simp only [List.map_map]
    exact List.map_congr_left fun t _ => hg t false
  | some t =>
    simp only
    rw [updateAt_map fun t => hg t true, List.map_map]
    exact List.map_congr_left fun t _ => hg t false

theorem set_active_terminal_active_zero (mm : TerminalManager) (hne : mm.terminals ≠ []) :
    (set_active_terminal mm 0).active_terminal_id = some 0 := by
  rw [set_active_terminal]
  cases h : mm.terminals with
  | nil => exact absurd h hne
  | cons t ts => rfl

/-- C9: `remove_terminal` on a valid slot removes exactly that session
(returning it), renumbers the survivors to dense in-order ids `0..N-1`,
and fixes the active slot: slot 0 becomes active when the active one was
removed (none when no pane remains), an active id beyond the removed slot
is decremented, and an active id before it is unchanged. -/
theorem remove_terminal_spec (m : TerminalManager) (i : Nat) (aw ah : ℚ)
    (hwf : m.num_terminals = m.terminals.length) (hi : i < m.terminals.length) :
    (remove_terminal m i aw ah).2 = m.terminals.get? i ∧
      (remove_terminal m i aw ah).1.num_terminals = m.terminals.length - 1 ∧
      (remove_terminal m i aw ah).1.terminals.length = m.terminals.length - 1 ∧
      (remove_terminal m i aw ah).1.terminals.map MTerm.id =
        List.range (m.terminals.length - 1) ∧
      (remove_terminal m i aw ah).1.terminals.map MTerm.hue =
        (m.terminals.eraseIdx i).map MTerm.hue ∧
      (m.active_terminal_id = some i →
        (remove_terminal m i aw ah).1.active_terminal_id =
          (if m.terminals.length ≤ 1 then none else some 0)) ∧
      (∀ a : Nat, m.active_terminal_id = some a → a ≠ i →
        (remove_terminal m i aw ah).1.active_terminal_id =
          some (if i < a then a - 1 else a)) := by
  have hsaid : ∀ (mm : TerminalManager) (j : Nat),
      (set_active_terminal mm j).terminals.map MTerm.id = mm.terminals.map MTerm.id :=
    set_active_terminal_map fun _ _ => rfl
  have hsahue : ∀ (mm : TerminalManager) (j : Nat),
      (set_active_terminal mm j).terminals.map MTerm.hue = mm.terminals.map MTerm.hue :=
    set_active_terminal_map fun _ _ => rfl
  have hmapid : (remove_terminal m i aw ah).1.terminals.map MTerm.id =
      List.range (m.terminals.length - 1) := by
    rw [remove_terminal, if_pos hi]
    show ((resize_terminals (rearrange_terminals _) aw ah).terminals.map MTerm.id) = _
    rw [@resize_terminals_map _ MTerm.id (fun _ _ _ => rfl) _ aw ah]
    rw [(rearrange_terminals_fields _).1]
    have hren : (renumberFrom 0 (m.terminals.eraseIdx i)).map MTerm.id =
        List.range (m.terminals.length - 1) := by
      rw [renumberFrom_map_id, List.length_eraseIdx_of_lt hi, List.range_eq_range']
    split
    · simp only
      split
      · rw [hsaid]
        simp only
        exact hren
      · simp only
        exact hren
    · split
      · split
        · simp only
          exact hren
        · simp only
          exact hren
      · simp only
        exact hren
  refine ⟨?_, ?_, ?_, hmapid, ?_, ?_, ?_⟩
  · rw [remove_terminal, if_pos hi]
  · rw [remove_terminal, if_pos hi]
    show (resize_terminals (rearrange_terminals _) aw ah).num_terminals = _
    rw [(resize_terminals_fields _ aw ah).2.2.2, (rearrange_terminals_fields _).2.2]
    have hnumsa : ∀ (mm : TerminalManager) (j : Nat),
        (set_active_terminal mm j).num_terminals = mm.num_terminals := by
      intro mm j
      rw [set_active_terminal]
      cases (mm.terminals.map fun t => { t with is_active := false }).get? j <;> rfl
    split
    · simp only
      split
      · rw [hnumsa]
        simp only
        omega
      · simp only
        omega
    · split
      · split
        · simp only
          omega
        · simp only
          omega
      · simp only
        omega
  · have := congrArg List.length hmapid
    rw [List.length_map, List.length_range] at this
    exact this
  · rw [remove_terminal, if_pos hi]
    show ((resize_terminals (rearrange_terminals _) aw ah).terminals.map MTerm.hue) = _
    rw [@resize_terminals_map _ MTerm.hue (fun _ _ _ => rfl) _ aw ah]
    rw [(rearrange_terminals_fields _).1]
    split
    · simp only
      split
      · rw [hsahue]
        simp only
        rw [renumberFrom_map_hue]
      · simp only
        rw [renumberFrom_map_hue]
    · split
      · split
        · simp only
          rw [renumberFrom_map_hue]
        · simp only
          rw [renumberFrom_map_hue]
      · simp only
        rw [renumberFrom_map_hue]
  · intro hact
    rw [remove_terminal, if_pos hi]
    show (resize_terminals (rearrange_terminals _) aw ah).active_terminal_id = _
    rw [(resize_terminals_fields _ aw ah).1, (rearrange_terminals_fields _).2.1]
    rw [if_pos hact]
    simp only
    by_cases hnil : renumberFrom 0 (m.terminals.eraseIdx i) = []
    · rw [if_neg (by simpa using hnil)]
      have hlen : m.terminals.length ≤ 1 := by
        have he := renumberFrom_nil hnil
        have hl := List.length_eraseIdx_of_lt hi
        rw [he] at hl
        simp at hl
        omega
      rw [if_pos hlen]
    · rw [if_pos (by simpa using hnil)]
      rw [set_active_terminal_active_zero _ (by simpa using hnil)]
      have hlen : ¬m.terminals.length ≤ 1 := by
        have he : m.terminals.eraseIdx i ≠ [] := fun h => hnil (by rw [h]; rfl)
        have hl := List.length_eraseIdx_of_lt hi
        have hpos : 0 < (m.terminals.eraseIdx i).length := List.length_pos.mpr he
        omega
      rw [if_neg hlen]
  · intro a hact hane
    rw [remove_terminal, if_pos hi]
    show (resize_terminals (rearrange_terminals _) aw ah).active_terminal_id = _
    rw [(resize_terminals_fields _ aw ah).1, (rearrange_terminals_fields _).2.1]
    rw [if_neg (by simp only [hact, Option.some.injEq]; exact fun h => hane h)]
    simp only [hact]
    by_cases hgt : a > i
    · rw [if_pos hgt, if_pos hgt]
    · rw [if_neg hgt, if_neg (by omega : ¬i < a)]

theorem remove_terminal_spec_witness :
    (remove_terminal manager3 1 300 200).2 = manager3.terminals.get? 1 ∧
      (remove_terminal manager3 1 300 200).1.terminals.map MTerm.id = List.range 2 ∧
      (remove_terminal manager3 1 300 200).1.active_terminal_id = some 1 := by
  have h := remove_terminal_spec manager3 1 300 200 rfl (by decide)
  refine ⟨h.1, h.2.2.2.1, ?_⟩
  have h2 := h.2.2.2.2.2.2 2 rfl (by decide)
  rw [h2]
  decide
